import Mathlib

/-!
Verification of the pygroupmeapi client library (src/common_utils.py, src/chat.py,
src/base_object.py, src/message.py, src/time_functions.py) via a shallow embedding.
Each Lean definition below translates one Python function or code region; the doc
comment of each definition names its source location.
-/

namespace PyGroupMe

/-- A minimal model of Python/JSON values as they occur in API responses:
`null`, strings, integers, booleans, arrays and objects (ordered key/value lists,
matching insertion order of Python dicts). -/
inductive JsonV where
  | null : JsonV
  | str : String → JsonV
  | num : Int → JsonV
  | boolean : Bool → JsonV
  | arr : List JsonV → JsonV
  | obj : List (String × JsonV) → JsonV

/-- Python subscript `value[key]` with a string key: succeeds only on a dict
containing the key (first binding wins, as in a dict there is at most one);
indexing a string, list, number, etc. by a string key is a TypeError, and a
missing key is a KeyError — both modelled as `none`. -/
def jsonGet : JsonV → String → Option JsonV
  | JsonV.obj fields, k => (fields.find? (fun f => f.1 == k)).map (fun f => f.2)
  | _, _ => none

/-- Whether a list of characters is a leading run of another (used to model the
Python string tests `endpoint.startswith('groups')` and `keyword in text`). -/
def startsWithChars : List Char → List Char → Bool
  | [], _ => true
  | _ :: _, [] => false
  | a :: as, b :: bs => a == b && startsWithChars as bs

/-- Python's substring test `k in t` over strings, as character lists: `k` occurs
contiguously somewhere in `t`. -/
def hasSubChars (k : List Char) : List Char → Bool
  | [] => startsWithChars k []
  | c :: rest => startsWithChars k (c :: rest) || hasSubChars k rest

/-- An HTTP response as seen by `call_api`: a status code and the decoded JSON body
(the body is only consulted on the 200 path, where `json.loads(response.text)` has
already succeeded; the envelope is the decoded body). -/
structure HttpResponse where
  status_code : Nat
  body : JsonV

/-- Outcome of `call_api` (src/common_utils.py lines 21-45): a returned JSON value,
a raised `GroupMeException` carrying its message, or a raised non-domain Python
error (e.g. `KeyError` when the 200 envelope lacks a `response` field). -/
inductive ApiOutcome where
  | ok : JsonV → ApiOutcome
  | groupMeException : String → ApiOutcome
  | pythonError : ApiOutcome

/-- `call_api` from src/common_utils.py lines 21-45, with the HTTP GET abstracted
into the `response` argument. Mirrors the Python control flow exactly:
the optional `except_message` defaults to `'Unspecified error occurred'`;
a 304 on an endpoint starting with `'groups'` returns `{'messages': []}`;
a 304 on the exact endpoint `'direct_messages'` returns `{'direct_messages': []}`;
any other 304 falls through to the non-200 check; any non-200 status raises
`GroupMeException(except_message)`; on 200 the envelope's `'response'` field is
returned. -/
def call_api (endpoint : String) (except_message : Option String)
    (response : HttpResponse) : ApiOutcome :=
  let msg := except_message.getD "Unspecified error occurred"
  if response.status_code = 304 ∧ startsWithChars "groups".data endpoint.data then
    ApiOutcome.ok (JsonV.obj [("messages", JsonV.arr [])])
  else if response.status_code = 304 ∧ endpoint = "direct_messages" then
    ApiOutcome.ok (JsonV.obj [("direct_messages", JsonV.arr [])])
  else if response.status_code ≠ 200 then
    ApiOutcome.groupMeException msg
  else
    match jsonGet response.body "response" with
    | some v => ApiOutcome.ok v
    | none => ApiOutcome.pythonError

/-- One message record, with the three fields read by `page_through_messages`:
`message['id']`, `message['created_at']` and `message['text']` (`text` may be
JSON null, hence `Option`). -/
structure MsgData where
  id : String
  created_at : Int
  text : Option String
deriving Repr, DecidableEq

/-- The early-stop test of src/chat.py line 173: `after and message['created_at']
< after`. The Python truthiness of `after` (unset `''`, i.e. never converted to an
epoch) is modelled by `Option`: `none` means the bound is absent. -/
def afterStop (after : Option Int) (m : MsgData) : Bool :=
  match after with
  | none => false
  | some a => m.created_at < a

/-- The skip test of src/chat.py line 176: `(before and message['created_at'] >
before) or (keyword and (message['text'] is None or keyword not in
message['text']))`. `none` models an absent (falsy) bound or keyword. -/
def skipFilter (before : Option Int) (keyword : Option String) (m : MsgData) : Bool :=
  (match before with
   | none => false
   | some b => b < m.created_at) ||
  (match keyword with
   | none => false
   | some k =>
     match m.text with
     | none => true
     | some t => !hasSubChars k.data t.data)

/-- Result of running the `for i, message in enumerate(message_page)` body of
src/chat.py lines 172-197 over one page: the messages appended to `messages`
(in page order), the increments to `num_skipped`, the final `in_range` flag, and
the update to `params['before_id']` (`none` = the assignment at line 197 was
never reached, because the `after` break at line 175 fired before the last
element was processed). -/
structure PageOut where
  collected : List MsgData
  skipped : Nat
  inRange : Bool
  cursor : Option String
deriving Repr, DecidableEq

/-- The per-page `for` loop of src/chat.py lines 172-197. Processing stops at the
first message older than `after` (lines 173-175), skipping the rest of the page;
otherwise each message is either skipped (line 177) or collected (line 179), and
`before_id` is set to the id of the last element of the page (lines 196-197). -/
def processPage (after before : Option Int) (keyword : Option String) :
    List MsgData → PageOut
  | [] => ⟨[], 0, true, none⟩
  | m :: rest =>
    if afterStop after m then ⟨[], 0, false, none⟩
    else
      let tailOut := processPage after before keyword rest
      let cur := if rest = [] then some m.id else tailOut.cursor
      if skipFilter before keyword m then
        ⟨tailOut.collected, tailOut.skipped + 1, tailOut.inRange, cur⟩
      else
        ⟨m :: tailOut.collected, tailOut.skipped, tailOut.inRange, cur⟩

/-- The `effective_limit` computation of src/chat.py lines 157-160 and 201-204:
`100` when `limit == -1`, else `min(limit - len(messages), 100)`. -/
def effLimit (limit : Int) (collectedCount : Nat) : Int :=
  if limit = -1 then 100 else min (limit - (collectedCount : Int)) 100

/-- The `limit` entry of the request params: present (lines 161, 205) only for
groups; the direct-message branch sends no limit parameter at all. -/
def limitParamFor (isGroup : Bool) (limit : Int) (collectedCount : Nat) : Option Int :=
  if isGroup then some (effLimit limit collectedCount) else none

/-- One gateway request issued by the paging loop, with the response it got:
the `before_id` param (absent on the first request), the `limit` param (absent
for direct messages), and the page of messages extracted from the response. The
constant `other_user_id` param of the direct-message endpoint carries no
information and is not recorded. -/
structure ReqRec where
  beforeId : Option String
  limitParam : Option Int
  page : List MsgData
deriving Repr, DecidableEq

/-- Result of a full `page_through_messages` run: the returned `messages` list,
the final `num_skipped` count, the full request/response trace (in order), and
the final `in_range` flag. -/
structure RunOut where
  msgs : List MsgData
  skipped : Nat
  recs : List ReqRec
  inRange : Bool
deriving Repr, DecidableEq

/-- A gateway: maps the `before_id` and `limit` request params to the list of
messages extracted from the response (`response['messages']` for groups,
`response['direct_messages']` for direct messages). -/
def Gw : Type := Option String → Option Int → List MsgData

/-- `params['before_id']` after processing a page: the cursor update from the
page if the last element was reached, else the previous value left in `params`. -/
def cursorOr (c : Option String) (beforeId : Option String) : Option String :=
  match c with
  | some x => some x
  | none => beforeId

/-- The next request issued at src/chat.py line 207 after processing `page`:
`before_id` as updated by the page (lines 195-197), the group `limit` param
recomputed from `len(messages)` after this page's appends (lines 199-205), and
the page the gateway returns for it. -/
def stepReq (gw : Gw) (isGroup : Bool) (after before : Option Int)
    (keyword : Option String) (limit : Int) (page : List MsgData)
    (beforeId : Option String) (msgs : List MsgData) : ReqRec :=
  let out := processPage after before keyword page
  let beforeId1 := cursorOr out.cursor beforeId
  let lp := limitParamFor isGroup limit (msgs ++ out.collected).length
  ⟨beforeId1, lp, gw beforeId1 lp⟩

/-- The `while len(message_page) > 0 and in_range` loop of src/chat.py lines
171-211, entered with the current page already fetched. On a non-empty page the
body processes the page (lines 172-197), recomputes the group `limit` param from
`len(messages)` (lines 199-205), and unconditionally issues the next request
(line 207) — also when `in_range` was just set false, in which case the loop
condition then fails and that response is discarded. `fuel` bounds the number of
iterations; `none` means the fuel ran out while the loop was still running. -/
def pageLoop (gw : Gw) (isGroup : Bool) (after before : Option Int)
    (keyword : Option String) (limit : Int) :
    Nat → List MsgData → Option String → List MsgData → Nat → Option RunOut
  | 0, page, beforeId, msgs, skipped =>
    if page = [] then some ⟨msgs, skipped, [], true⟩
    else
      let out := processPage after before keyword page
      let rec1 := stepReq gw isGroup after before keyword limit page beforeId msgs
      if out.inRange then none
      else some ⟨msgs ++ out.collected, skipped + out.skipped, [rec1], false⟩
  | fuel + 1, page, beforeId, msgs, skipped =>
    if page = [] then some ⟨msgs, skipped, [], true⟩
    else
      let out := processPage after before keyword page
      let rec1 := stepReq gw isGroup after before keyword limit page beforeId msgs
      if out.inRange then
        match pageLoop gw isGroup after before keyword limit fuel
            rec1.page rec1.beforeId (msgs ++ out.collected) (skipped + out.skipped) with
        | none => none
        | some r => some ⟨r.msgs, r.skipped, rec1 :: r.recs, r.inRange⟩
      else
        some ⟨msgs ++ out.collected, skipped + out.skipped, [rec1], false⟩

/-- `page_through_messages` from src/chat.py lines 114-215, with the string-date
preprocessing of lines 131-140 already applied (`after`/`before` are epochs, or
`none` when the falsy `''` default was passed), the gateway abstracted into `gw`,
and verbose printing (plus the `count` field read only for it) omitted. The
first request is issued at line 165 with no `before_id` and, for groups, the
initial effective limit; the loop then runs as in `pageLoop`. Returns the
messages, skip count, request trace and final `in_range` flag. -/
def page_through_messages (gw : Gw) (isGroup : Bool) (after before : Option Int)
    (keyword : Option String) (limit : Int) (fuel : Nat) : Option RunOut :=
  let lp0 := limitParamFor isGroup limit 0
  let page0 := gw none lp0
  match pageLoop gw isGroup after before keyword limit fuel page0 none [] 0 with
  | none => none
  | some r => some ⟨r.msgs, r.skipped, ⟨none, lp0, page0⟩ :: r.recs, r.inRange⟩

/-- The suffix of a conversation strictly after the message with the given id:
the server-side meaning of the `before_id` cursor over a conversation held as a
newest-first list. `none` (no cursor) yields the whole conversation; an id not
present yields `[]`. -/
def dropAfterId (convo : List MsgData) : Option String → List MsgData
  | none => convo
  | some i => ((convo.dropWhile (fun m => m.id != i)).drop 1)

/-- A faithful group-messages gateway derived from a fixed conversation (a
newest-first message list): serves the messages strictly after the cursor, at
most `limit` of them (the server honours the `limit` param; it is always present
on group requests, so the `none` case — answered with the server default page
size of 20 — is never exercised). -/
def gwGroup (convo : List MsgData) : Gw := fun beforeId lp =>
  (dropAfterId convo beforeId).take (match lp with
    | some l => l.toNat
    | none => 20)

/-- A direct-message gateway derived from a fixed conversation: serves messages
strictly after the cursor in server-chosen pages of `pageSize`; the code sends
no `limit` param on this endpoint, so the param is ignored. -/
def gwDM (convo : List MsgData) (pageSize : Nat) : Gw := fun beforeId _ =>
  (dropAfterId convo beforeId).take pageSize

/-- The `while len(message_page) > 0` loop of src/message.py lines 94-111:
fetch the page before `last_id`, scan it in order returning the first message
whose id equals `reply_id`, otherwise continue from the id of the last message
of the page; an empty page returns Python `None`. The reply-resolver gateway
takes only the cursor (its `limit: 100` / `other_user` params are constant).
Outer `none` = fuel exhausted. -/
def findLoop (gw : String → List MsgData) (reply_id : String) :
    Nat → String → Option (Option MsgData)
  | 0, _ => none
  | fuel + 1, last_id =>
    match gw last_id with
    | [] => some none
    | m :: rest =>
      match (m :: rest).find? (fun x => x.id == reply_id) with
      | some found => some (some found)
      | none => findLoop gw reply_id fuel ((m :: rest).getLast (by simp)).id

/-- `Message.replied_message` from src/message.py lines 54-113, with the chat-id
re-resolution (lines 62-75) and message materialisation abstracted away: if
`reply_message_id` is null the function returns `None` without any request;
otherwise it pages backward starting from the message's own id (`last_id =
self.id`, line 79) via `findLoop`. -/
def replied_message (gw : String → List MsgData) (selfId : String)
    (reply_message_id : Option String) (fuel : Nat) : Option (Option MsgData) :=
  match reply_message_id with
  | none => some none
  | some r => findLoop gw r fuel selfId

/-- A reply-resolver gateway derived from a fixed newest-first conversation:
`before_id = c` serves the at most `pageSize` messages strictly after `c`. -/
def gwReply (convo : List MsgData) (pageSize : Nat) : String → List MsgData :=
  fun c => (dropAfterId convo (some c)).take pageSize

/-- A conversation as consumed by the merge at the end of `GroupMe.get_chats`:
only `last_used_epoch` is compared; `name` stands for the rest of the object's
identity. -/
structure ChatRec where
  name : String
  last_used_epoch : Int
deriving Repr, DecidableEq

/-- The two-pointer merge of src/base_object.py lines 201-220, as structural
recursion on the two lists: while both lists have elements left, take the group
when `groups[group_index].last_used_epoch > direct_messages[dm_index].last_used_epoch`
and the direct message otherwise (ties go to the direct message); then drain
whichever list remains. -/
def get_chats_merge : List ChatRec → List ChatRec → List ChatRec
  | [], dms => dms
  | g :: gs, [] => g :: gs
  | g :: gs, d :: ds =>
    if d.last_used_epoch < g.last_used_epoch then
      g :: get_chats_merge gs (d :: ds)
    else
      d :: get_chats_merge (g :: gs) ds
  termination_by gs ds => gs.length + ds.length

/-- Python iteration `for user in group_data`: over a list it yields the
elements, over a dict it yields the keys (as strings), over a string it yields
its characters (as 1-character strings); over null/number/bool it is a
TypeError (`none`). -/
def pyIter : JsonV → Option (List JsonV)
  | JsonV.arr xs => some xs
  | JsonV.obj fs => some (fs.map (fun f => JsonV.str f.1))
  | JsonV.str s => some (s.data.map (fun c => JsonV.str (String.mk [c])))
  | _ => none

/-- The list comprehension `[user['nickname'] for user in …]` of src/chat.py
line 79: builds the list left to right, failing at the first element where the
subscript fails. -/
def nicknameList : List JsonV → Option (List JsonV)
  | [] => some []
  | u :: rest =>
    match jsonGet u "nickname", nicknameList rest with
    | some v, some vs => some (v :: vs)
    | _, _ => none

/-- `Group.members` from src/chat.py lines 77-79, with the group-detail response
abstracted into `group_data`: `return [user['nickname'] for user in group_data]`
— iterating over `group_data` itself (not over `group_data['members']`). -/
def members (group_data : JsonV) : Option (List JsonV) :=
  match pyIter group_data with
  | some it => nicknameList it
  | none => none

/-- The result of `time.localtime(time.time())` as read by `to_seconds`
(src/time_functions.py lines 40-42, 48): the local wall-clock fields. -/
structure TmStruct where
  tm_year : Int
  tm_mon : Int
  tm_mday : Int
  tm_hour : Int
  tm_min : Int
  tm_sec : Int
deriving Repr, DecidableEq

/-- The Gregorian leap-year rule used by Python's `datetime`. -/
def isLeapYear (y : Int) : Bool :=
  (y % 4 == 0 && y % 100 != 0) || y % 400 == 0

/-- Number of days of month `m` of year `y` (Python `calendar.monthrange`
semantics, as enforced by the `datetime` constructor). -/
def daysInMonth (y m : Int) : Int :=
  if m = 2 then (if isLeapYear y then 29 else 28)
  else if m = 4 ∨ m = 6 ∨ m = 9 ∨ m = 11 then 30
  else 31

/-- A validated `datetime.datetime` value (date and time fields only; tzinfo and
microseconds play no role in the embedded code). -/
structure DatetimeV where
  year : Int
  month : Int
  day : Int
  hour : Int
  minute : Int
  second : Int
deriving Repr, DecidableEq

/-- The `datetime.datetime(year, month, day, hour, minute, second)` constructor:
returns the value when all fields are in range (`MINYEAR = 1 ≤ year ≤ MAXYEAR =
9999`, `1 ≤ month ≤ 12`, `1 ≤ day ≤ days in that month`, clock fields in range),
and raises `ValueError` (`none`) otherwise. -/
def datetimeNew (year month day hour minute second : Int) : Option DatetimeV :=
  if 1 ≤ year ∧ year ≤ 9999 ∧ 1 ≤ month ∧ month ≤ 12
      ∧ 1 ≤ day ∧ day ≤ daysInMonth year month
      ∧ 0 ≤ hour ∧ hour ≤ 23 ∧ 0 ≤ minute ∧ minute ≤ 59
      ∧ 0 ≤ second ∧ second ≤ 59 then
    some ⟨year, month, day, hour, minute, second⟩
  else
    none

/-- The `units == 'm'` arm of `to_seconds` (src/time_functions.py lines 39-46),
with `time.localtime(time.time())` abstracted into `curr_time`. Python's `%` and
`//` on ints are floor-mod and floor-div (`Int.fmod` / `Int.fdiv`). The final
`int(time.time() - cutoff_date.timestamp())` subtraction is total, so the arm
succeeds exactly when the `datetime` construction at line 45 does; the
constructed cutoff datetime is returned in place of the epoch distance. -/
def to_seconds_months (curr_time : TmStruct) (number : Int) : Option DatetimeV :=
  let months_to_subtract := Int.fmod number 12
  let years_to_subtract := Int.fdiv number 12
  datetimeNew (curr_time.tm_year - years_to_subtract)
    (curr_time.tm_mon - months_to_subtract)
    curr_time.tm_mday curr_time.tm_hour curr_time.tm_min curr_time.tm_sec

/-- The cursor-advancement contract over a request trace, relative to the page
the previous request returned: whenever the preceding page was processed to its
last item (its `for` loop ran without the `after` early stop, i.e. its
`processPage` outcome is still in range), the recorded request's `before_id`
equals the id of the last message of that page. The lone request issued after
an early stop is exactly the one whose hypothesis fails. -/
def chainOk (after before : Option Int) (keyword : Option String) :
    List MsgData → List ReqRec → Prop
  | _, [] => True
  | prevPage, r1 :: rest =>
    ((processPage after before keyword prevPage).inRange = true →
      r1.beforeId = (prevPage.getLast?).map MsgData.id) ∧
    chainOk after before keyword r1.page rest

/-- `chainOk` for a full trace including the seed request (whose own `before_id`
is unconstrained): every later request's `before_id` equals the id of the last
message of the page returned by the request before it, as long as that page was
processed without the early stop. -/
def traceChained (after before : Option Int) (keyword : Option String) :
    List ReqRec → Prop
  | [] => True
  | r1 :: rest => chainOk after before keyword r1.page rest

/-- Descending order on conversations by `last_used_epoch` (ties allowed). -/
abbrev chatGE (a b : ChatRec) : Prop := b.last_used_epoch ≤ a.last_used_epoch

theorem get_chats_merge_perm :
    ∀ gs ds : List ChatRec, (get_chats_merge gs ds).Perm (gs ++ ds)
  | [], ds => by simp [get_chats_merge]
  | g :: gs, [] => by simp [get_chats_merge]
  | g :: gs, d :: ds => by
    simp only [get_chats_merge]
    split
    · exact (get_chats_merge_perm gs (d :: ds)).cons g
    · exact ((get_chats_merge_perm (g :: gs) ds).cons d).trans List.perm_middle.symm
  termination_by gs ds => gs.length + ds.length

theorem get_chats_merge_sublist_left :
    ∀ gs ds : List ChatRec, gs.Sublist (get_chats_merge gs ds)
  | [], ds => by simp [get_chats_merge]
  | g :: gs, [] => by simp [get_chats_merge]
  | g :: gs, d :: ds => by
    simp only [get_chats_merge]
    split
    · exact (get_chats_merge_sublist_left gs (d :: ds)).cons₂ g
    · exact (get_chats_merge_sublist_left (g :: gs) ds).cons d
  termination_by gs ds => gs.length + ds.length

theorem get_chats_merge_sublist_right :
    ∀ gs ds : List ChatRec, ds.Sublist (get_chats_merge gs ds)
  | [], ds => by simp [get_chats_merge]
  | _ :: _, [] => by simp [get_chats_merge]
  | g :: gs, d :: ds => by
    simp only [get_chats_merge]
    split
    · exact (get_chats_merge_sublist_right gs (d :: ds)).cons g
    · exact (get_chats_merge_sublist_right (g :: gs) ds).cons₂ d
  termination_by gs ds => gs.length + ds.length

theorem get_chats_merge_sorted :
    ∀ gs ds : List ChatRec, List.Sorted chatGE gs → List.Sorted chatGE ds →
      List.Sorted chatGE (get_chats_merge gs ds)
  | [], ds, _, hd => by simpa [get_chats_merge] using hd
  | g :: gs, [], hg, _ => by simpa [get_chats_merge] using hg
  | g :: gs, d :: ds, hg, hd => by
    rw [List.sorted_cons] at hg hd
    simp only [get_chats_merge]
    split
    · rename_i hlt
      rw [List.sorted_cons]
      refine ⟨?_, get_chats_merge_sorted gs (d :: ds) hg.2 (List.sorted_cons.mpr hd)⟩
      intro x hx
      rcases List.mem_append.mp ((get_chats_merge_perm gs (d :: ds)).mem_iff.mp hx)
        with hxg | hxd
      · exact hg.1 x hxg
      · rcases List.mem_cons.mp hxd with rfl | hxds
        · exact le_of_lt hlt
        · exact le_trans (hd.1 x hxds) (le_of_lt hlt)
    · rename_i hge
      rw [List.sorted_cons]
      refine ⟨?_, get_chats_merge_sorted (g :: gs) ds (List.sorted_cons.mpr hg) hd.2⟩
      intro x hx
      rcases List.mem_append.mp ((get_chats_merge_perm (g :: gs) ds).mem_iff.mp hx)
        with hxg | hxd
      · rcases List.mem_cons.mp hxg with rfl | hxgs
        · exact le_of_not_lt hge
        · exact le_trans (hg.1 x hxgs) (le_of_not_lt hge)
      · exact hd.1 x hxd
  termination_by gs ds => gs.length + ds.length

/-- C7: given the fetched group list and direct-message list, each sorted in
descending order of `last_used_epoch`, the merge at the end of
`GroupMe.get_chats` produces a list that is sorted in descending order of
`last_used_epoch`, contains every element of both inputs exactly once (it is a
permutation of their concatenation), and is an interleaving preserving each
input's relative order (each input is a sublist of the output). -/
theorem get_chats_merge_correct (gs ds : List ChatRec)
    (hg : List.Sorted chatGE gs) (hd : List.Sorted chatGE ds) :
    List.Sorted chatGE (get_chats_merge gs ds) ∧
    (get_chats_merge gs ds).Perm (gs ++ ds) ∧
    gs.Sublist (get_chats_merge gs ds) ∧
    ds.Sublist (get_chats_merge gs ds) :=
  ⟨get_chats_merge_sorted gs ds hg hd, get_chats_merge_perm gs ds,
    get_chats_merge_sublist_left gs ds, get_chats_merge_sublist_right gs ds⟩

/-- Witness for `get_chats_merge_correct` at a concrete pair of sorted lists
(including a tie, which goes to the direct-message side). -/
theorem get_chats_merge_correct_witness :
    List.Sorted chatGE
      (get_chats_merge [⟨"g1", 50⟩, ⟨"g2", 30⟩] [⟨"d1", 40⟩, ⟨"d2", 30⟩]) ∧
    (get_chats_merge [⟨"g1", 50⟩, ⟨"g2", 30⟩] [⟨"d1", 40⟩, ⟨"d2", 30⟩]).Perm
      ([⟨"g1", 50⟩, ⟨"g2", 30⟩] ++ [⟨"d1", 40⟩, ⟨"d2", 30⟩]) ∧
    List.Sublist [⟨"g1", 50⟩, ⟨"g2", 30⟩]
      (get_chats_merge [⟨"g1", 50⟩, ⟨"g2", 30⟩] [⟨"d1", 40⟩, ⟨"d2", 30⟩]) ∧
    List.Sublist [⟨"d1", 40⟩, ⟨"d2", 30⟩]
      (get_chats_merge [⟨"g1", 50⟩, ⟨"g2", 30⟩] [⟨"d1", 40⟩, ⟨"d2", 30⟩]) :=
  get_chats_merge_correct [⟨"g1", 50⟩, ⟨"g2", 30⟩] [⟨"d1", 40⟩, ⟨"d2", 30⟩]
    (by decide) (by decide)

/-- C6: `call_api` returns the kind-appropriate empty page on HTTP 304
(`{'messages': []}` when the endpoint starts with `groups`,
`{'direct_messages': []}` for the `direct_messages` endpoint), returns the
envelope's `response` field on HTTP 200, and raises a `GroupMeException`
carrying the caller-supplied context message on any other non-200 status. -/
theorem call_api_status_dispatch (endpoint : String) (m : String)
    (resp : HttpResponse) :
    (resp.status_code = 304 → startsWithChars "groups".data endpoint.data = true →
      call_api endpoint (some m) resp
        = ApiOutcome.ok (JsonV.obj [("messages", JsonV.arr [])])) ∧
    (resp.status_code = 304 → endpoint = "direct_messages" →
      call_api endpoint (some m) resp
        = ApiOutcome.ok (JsonV.obj [("direct_messages", JsonV.arr [])])) ∧
    (resp.status_code = 200 → ∀ v, jsonGet resp.body "response" = some v →
      call_api endpoint (some m) resp = ApiOutcome.ok v) ∧
    (resp.status_code ≠ 200 → resp.status_code ≠ 304 →
      call_api endpoint (some m) resp = ApiOutcome.groupMeException m) := by
  refine ⟨?_, ?_, ?_, ?_⟩
  · intro h1 h2
    simp [call_api, h1, h2]
  · intro h1 h2
    subst h2
    simp [call_api, h1,
      (by decide : startsWithChars "groups".data "direct_messages".data = false)]
  · intro h1 v hv
    simp [call_api, h1, hv]
  · intro h1 h2
    simp [call_api, h1, h2, Option.getD]

/-- Witness for `call_api_status_dispatch` at concrete responses. -/
theorem call_api_status_dispatch_witness :
    call_api "groups/5/messages" (some "ctx") ⟨304, JsonV.null⟩
      = ApiOutcome.ok (JsonV.obj [("messages", JsonV.arr [])]) ∧
    call_api "direct_messages" (some "ctx") ⟨304, JsonV.null⟩
      = ApiOutcome.ok (JsonV.obj [("direct_messages", JsonV.arr [])]) ∧
    call_api "groups" (some "ctx") ⟨200, JsonV.obj [("response", JsonV.num 7)]⟩
      = ApiOutcome.ok (JsonV.num 7) ∧
    call_api "chats" (some "ctx") ⟨500, JsonV.null⟩
      = ApiOutcome.groupMeException "ctx" :=
  ⟨(call_api_status_dispatch "groups/5/messages" "ctx" ⟨304, JsonV.null⟩).1
      rfl (by decide),
    (call_api_status_dispatch "direct_messages" "ctx" ⟨304, JsonV.null⟩).2.1 rfl rfl,
    (call_api_status_dispatch "groups" "ctx"
      ⟨200, JsonV.obj [("response", JsonV.num 7)]⟩).2.2.1 rfl (JsonV.num 7) rfl,
    (call_api_status_dispatch "chats" "ctx" ⟨500, JsonV.null⟩).2.2.2
      (by decide) (by decide)⟩

/-- C9: the calendar-month arm of `to_seconds` constructs its cutoff `datetime`
with month `tm_mon - number % 12`, so it can only return a value when
`number % 12` is strictly below the current month, and whenever
`number % 12 ≥ tm_mon` the constructor is handed a month value `≤ 0` and the
call fails with a `ValueError` instead of producing a cutoff. -/
theorem to_seconds_months_requires_small_mod (curr : TmStruct) (number : Int) :
    ((to_seconds_months curr number).isSome → Int.fmod number 12 < curr.tm_mon) ∧
    (curr.tm_mon ≤ Int.fmod number 12 →
      curr.tm_mon - Int.fmod number 12 ≤ 0 ∧ to_seconds_months curr number = none) := by
  constructor
  · intro h
    simp only [to_seconds_months, datetimeNew] at h
    split at h
    · rename_i hc
      omega
    · simp at h
  · intro hle
    refine ⟨by omega, ?_⟩
    simp only [to_seconds_months, datetimeNew]
    rw [if_neg]
    intro hc
    omega

/-- Witness for `to_seconds_months_requires_small_mod` in October (month 10)
with `number = 22` (`22 % 12 = 10 ≥ 10`). -/
theorem to_seconds_months_requires_small_mod_witness :
    ((to_seconds_months ⟨2026, 10, 12, 9, 30, 0⟩ 22).isSome →
      Int.fmod 22 12 < (10 : Int)) ∧
    ((10 : Int) - Int.fmod 22 12 ≤ 0 ∧
      to_seconds_months ⟨2026, 10, 12, 9, 30, 0⟩ 22 = none) :=
  ⟨(to_seconds_months_requires_small_mod ⟨2026, 10, 12, 9, 30, 0⟩ 22).1,
    (to_seconds_months_requires_small_mod ⟨2026, 10, 12, 9, 30, 0⟩ 22).2 (by decide)⟩

/-- C10: `Group.members` iterates over the group-detail response object itself,
so for any response object that contains a `members` field the comprehension
subscripts a top-level key (a string) with `'nickname'` and fails with a
`TypeError` instead of producing the nickname list. -/
theorem members_fails_on_group_object (fs : List (String × JsonV))
    (ms : List JsonV) (h : ("members", JsonV.arr ms) ∈ fs) :
    members (JsonV.obj fs) = none := by
  cases fs with
  | nil => cases h
  | cons f rest => rfl

/-- Witness for `members_fails_on_group_object` at a concrete group-detail
response. -/
theorem members_fails_on_group_object_witness :
    members (JsonV.obj [("members", JsonV.arr []), ("name", JsonV.str "G")]) = none :=
  members_fails_on_group_object [("members", JsonV.arr []), ("name", JsonV.str "G")]
    [] (List.mem_cons_self _ _)

theorem processPage_mem_collected (after before : Option Int) (keyword : Option String) :
    ∀ (page : List MsgData) (m : MsgData),
      m ∈ (processPage after before keyword page).collected →
      afterStop after m = false ∧ skipFilter before keyword m = false
  | [], m, h => by simp [processPage] at h
  | m0 :: rest, m, h => by
    simp only [processPage] at h
    by_cases h1 : afterStop after m0 = true
    · rw [if_pos h1] at h
      simp at h
    · rw [if_neg h1] at h
      by_cases h2 : skipFilter before keyword m0 = true
      · rw [if_pos h2] at h
        exact processPage_mem_collected after before keyword rest m h
      · rw [if_neg h2] at h
        rcases List.mem_cons.mp h with rfl | hm
        · exact ⟨Bool.not_eq_true _ ▸ eq_false_of_ne_true h1,
            Bool.not_eq_true _ ▸ eq_false_of_ne_true h2⟩
        · exact processPage_mem_collected after before keyword rest m hm

theorem processPage_after_none (before : Option Int) (keyword : Option String) :
    ∀ page : List MsgData,
      (processPage none before keyword page).inRange = true ∧
      (processPage none before keyword page).cursor = (page.getLast?).map MsgData.id
  | [] => ⟨rfl, rfl⟩
  | m0 :: rest => by
    have ih := processPage_after_none before keyword rest
    simp only [processPage]
    have h1 : afterStop none m0 = false := rfl
    rw [h1]
    simp only [Bool.false_eq_true, if_false]
    by_cases h2 : skipFilter before keyword m0 = true
    · rw [if_pos h2]
      cases rest with
      | nil => exact ⟨ih.1, by simp⟩
      | cons r rs =>
        refine ⟨ih.1, ?_⟩
        simp only [List.cons_ne_self, if_neg, List.getLast?_cons_cons]
        simpa using ih.2
    · rw [if_neg h2]
      cases rest with
      | nil => exact ⟨ih.1, by simp⟩
      | cons r rs =>
        refine ⟨ih.1, ?_⟩
        simp only [List.cons_ne_self, if_neg, List.getLast?_cons_cons]
        simpa using ih.2

theorem processPage_inRange_cursor (after before : Option Int)
    (keyword : Option String) :
    ∀ page : List MsgData, page ≠ [] →
      (processPage after before keyword page).inRange = true →
      (processPage after before keyword page).cursor = (page.getLast?).map MsgData.id
  | [], hp, _ => absurd rfl hp
  | m0 :: rest, _, hin => by
    have ih := processPage_inRange_cursor after before keyword rest
    simp only [processPage] at hin ⊢
    by_cases h1 : afterStop after m0 = true
    · rw [if_pos h1] at hin
      cases hin
    · rw [if_neg h1] at hin ⊢
      by_cases h2 : skipFilter before keyword m0 = true
      · rw [if_pos h2] at hin ⊢
        cases rest with
        | nil => simp
        | cons r rs =>
          simp only [List.cons_ne_self, if_neg, List.getLast?_cons_cons]
          simpa using ih (by simp) (by simpa using hin)
      · rw [if_neg h2] at hin ⊢
        cases rest with
        | nil => simp
        | cons r rs =>
          simp only [List.cons_ne_self, if_neg, List.getLast?_cons_cons]
          simpa using ih (by simp) (by simpa using hin)

theorem processPage_stop_tail (after before : Option Int) (keyword : Option String)
    (bad : MsgData) (hbad : afterStop after bad = true) :
    ∀ (p1 rest : List MsgData),
      processPage after before keyword (p1 ++ bad :: rest)
        = processPage after before keyword (p1 ++ [bad])
  | [], rest => by
    simp only [List.nil_append, processPage, hbad, if_pos]
  | m :: p1', rest => by
    simp only [List.cons_append, processPage]
    by_cases h1 : afterStop after m = true
    · simp [h1]
    · simp only [h1, Bool.false_eq_true, if_false, List.append_eq]
      rw [processPage_stop_tail after before keyword bad hbad p1' rest]
      have hne1 : ¬(p1' ++ bad :: rest = []) := by simp
      have hne2 : ¬(p1' ++ [bad] = []) := by simp
      rw [if_neg hne1, if_neg hne2]

theorem processPage_null_text (before : Option Int) (k : String) (m : MsgData)
    (hm : m.text = none) :
    processPage none before (some k) [m] = ⟨[], 1, true, some m.id⟩ := by
  have hskip : skipFilter before (some k) m = true := by
    simp [skipFilter, hm]
  simp [processPage, afterStop, hskip]

theorem pageLoop_nil (gw : Gw) (isG : Bool) (after before : Option Int)
    (keyword : Option String) (limit : Int) (fuel : Nat) (bid : Option String)
    (msgs : List MsgData) (sk : Nat) :
    pageLoop gw isG after before keyword limit fuel [] bid msgs sk
      = some ⟨msgs, sk, [], true⟩ := by
  cases fuel with
  | zero => rw [pageLoop]; simp
  | succ n => rw [pageLoop]; simp

theorem pageLoop_cons_stop (gw : Gw) (isG : Bool) (after before : Option Int)
    (keyword : Option String) (limit : Int) (fuel : Nat) (page : List MsgData)
    (bid : Option String) (msgs : List MsgData) (sk : Nat) (hp : page ≠ [])
    (hstop : (processPage after before keyword page).inRange = false) :
    pageLoop gw isG after before keyword limit fuel page bid msgs sk
      = some ⟨msgs ++ (processPage after before keyword page).collected,
              sk + (processPage after before keyword page).skipped,
              [stepReq gw isG after before keyword limit page bid msgs], false⟩ := by
  cases fuel with
  | zero => rw [pageLoop]; simp [hp, hstop]
  | succ n => rw [pageLoop]; simp [hp, hstop]

theorem pageLoop_cons_cont (gw : Gw) (isG : Bool) (after before : Option Int)
    (keyword : Option String) (limit : Int) (fuel : Nat) (page : List MsgData)
    (bid : Option String) (msgs : List MsgData) (sk : Nat) (hp : page ≠ [])
    (hcont : (processPage after before keyword page).inRange = true) :
    pageLoop gw isG after before keyword limit (fuel + 1) page bid msgs sk
      = match pageLoop gw isG after before keyword limit fuel
            (stepReq gw isG after before keyword limit page bid msgs).page
            (stepReq gw isG after before keyword limit page bid msgs).beforeId
            (msgs ++ (processPage after before keyword page).collected)
            (sk + (processPage after before keyword page).skipped) with
        | none => none
        | some r => some ⟨r.msgs, r.skipped,
            stepReq gw isG after before keyword limit page bid msgs :: r.recs,
            r.inRange⟩ := by
  conv_lhs => rw [pageLoop]
  simp [hp, hcont]

theorem pageLoop_cons_cont_zero (gw : Gw) (isG : Bool) (after before : Option Int)
    (keyword : Option String) (limit : Int) (page : List MsgData)
    (bid : Option String) (msgs : List MsgData) (sk : Nat) (hp : page ≠ [])
    (hcont : (processPage after before keyword page).inRange = true) :
    pageLoop gw isG after before keyword limit 0 page bid msgs sk = none := by
  rw [pageLoop]
  simp [hp, hcont]

theorem pageLoop_msgs_prop (gw : Gw) (isG : Bool) (after before : Option Int)
    (keyword : Option String) (limit : Int) (P : MsgData → Prop)
    (hP : ∀ (page : List MsgData) (m : MsgData),
      m ∈ (processPage after before keyword page).collected → P m) :
    ∀ (fuel : Nat) (page : List MsgData) (bid : Option String)
      (msgs : List MsgData) (sk : Nat) (r : RunOut),
      pageLoop gw isG after before keyword limit fuel page bid msgs sk = some r →
      (∀ m ∈ msgs, P m) → ∀ m ∈ r.msgs, P m := by
  intro fuel
  induction fuel with
  | zero =>
    intro page bid msgs sk r hrun hacc m hm
    by_cases hp : page = []
    · subst hp
      rw [pageLoop_nil] at hrun
      cases hrun
      exact hacc m hm
    · by_cases hstop : (processPage after before keyword page).inRange = true
      · rw [pageLoop_cons_cont_zero gw isG after before keyword limit page bid msgs sk
          hp hstop] at hrun
        cases hrun
      · rw [pageLoop_cons_stop gw isG after before keyword limit 0 page bid msgs sk hp
          (Bool.not_eq_true _ ▸ eq_false_of_ne_true hstop)] at hrun
        cases hrun
        rcases List.mem_append.mp hm with h1 | h2
        · exact hacc m h1
        · exact hP page m h2
  | succ fuel ih =>
    intro page bid msgs sk r hrun hacc m hm
    by_cases hp : page = []
    · subst hp
      rw [pageLoop_nil] at hrun
      cases hrun
      exact hacc m hm
    · by_cases hstop : (processPage after before keyword page).inRange = true
      · rw [pageLoop_cons_cont gw isG after before keyword limit fuel page bid msgs sk
          hp hstop] at hrun
        revert hrun
        cases hrec : pageLoop gw isG after before keyword limit fuel
            (stepReq gw isG after before keyword limit page bid msgs).page
            (stepReq gw isG after before keyword limit page bid msgs).beforeId
            (msgs ++ (processPage after before keyword page).collected)
            (sk + (processPage after before keyword page).skipped) with
        | none => intro hrun; cases hrun
        | some r1 =>
          intro hrun
          cases hrun
          refine ih _ _ _ _ r1 hrec ?_ m hm
          intro x hx
          rcases List.mem_append.mp hx with h1 | h2
          · exact hacc x h1
          · exact hP page x h2
      · rw [pageLoop_cons_stop gw isG after before keyword limit (fuel + 1) page bid
          msgs sk hp (Bool.not_eq_true _ ▸ eq_false_of_ne_true hstop)] at hrun
        cases hrun
        rcases List.mem_append.mp hm with h1 | h2
        · exact hacc m h1
        · exact hP page m h2

theorem pageLoop_exit (gw : Gw) (isG : Bool) (after before : Option Int)
    (keyword : Option String) (limit : Int) :
    ∀ (fuel : Nat) (page : List MsgData) (bid : Option String)
      (msgs : List MsgData) (sk : Nat) (r : RunOut),
      pageLoop gw isG after before keyword limit fuel page bid msgs sk = some r →
      (r.recs = [] → page = []) ∧
      (∀ lastRec, r.recs.getLast? = some lastRec →
        lastRec.page = [] ∨ r.inRange = false) := by
  intro fuel
  induction fuel with
  | zero =>
    intro page bid msgs sk r hrun
    by_cases hp : page = []
    · subst hp
      rw [pageLoop_nil] at hrun
      cases hrun
      exact ⟨fun _ => rfl, fun lastRec h => by cases h⟩
    · by_cases hstop : (processPage after before keyword page).inRange = true
      · rw [pageLoop_cons_cont_zero gw isG after before keyword limit page bid msgs sk
          hp hstop] at hrun
        cases hrun
      · rw [pageLoop_cons_stop gw isG after before keyword limit 0 page bid msgs sk hp
          (Bool.not_eq_true _ ▸ eq_false_of_ne_true hstop)] at hrun
        cases hrun
        refine ⟨(fun h => by cases h), fun lastRec h => ?_⟩
        exact Or.inr rfl
  | succ fuel ih =>
    intro page bid msgs sk r hrun
    by_cases hp : page = []
    · subst hp
      rw [pageLoop_nil] at hrun
      cases hrun
      exact ⟨fun _ => rfl, fun lastRec h => by cases h⟩
    · by_cases hstop : (processPage after before keyword page).inRange = true
      · rw [pageLoop_cons_cont gw isG after before keyword limit fuel page bid msgs sk
          hp hstop] at hrun
        revert hrun
        cases hrec : pageLoop gw isG after before keyword limit fuel
            (stepReq gw isG after before keyword limit page bid msgs).page
            (stepReq gw isG after before keyword limit page bid msgs).beforeId
            (msgs ++ (processPage after before keyword page).collected)
            (sk + (processPage after before keyword page).skipped) with
        | none => intro hrun; cases hrun
        | some r1 =>
          intro hrun
          cases hrun
          have hsub := ih _ _ _ _ r1 hrec
          refine ⟨(fun h => by cases h), fun lastRec h => ?_⟩
          cases hrecs : r1.recs with
          | nil =>
            rw [hrecs] at h
            simp only [List.getLast?_singleton] at h
            cases h
            exact Or.inl (hsub.1 hrecs)
          | cons a as =>
            rw [hrecs] at h
            rw [List.getLast?_cons_cons] at h
            exact hsub.2 lastRec (hrecs ▸ h)
      · rw [pageLoop_cons_stop gw isG after before keyword limit (fuel + 1) page bid
          msgs sk hp (Bool.not_eq_true _ ▸ eq_false_of_ne_true hstop)] at hrun
        cases hrun
        exact ⟨(fun h => by cases h), fun lastRec h => Or.inr rfl⟩

theorem pageLoop_chain (gw : Gw) (isG : Bool) (after before : Option Int)
    (keyword : Option String) (limit : Int) :
    ∀ (fuel : Nat) (page : List MsgData) (bid : Option String)
      (msgs : List MsgData) (sk : Nat) (r : RunOut),
      pageLoop gw isG after before keyword limit fuel page bid msgs sk = some r →
      chainOk after before keyword page r.recs := by
  intro fuel
  induction fuel with
  | zero =>
    intro page bid msgs sk r hrun
    by_cases hp : page = []
    · subst hp
      rw [pageLoop_nil] at hrun
      cases hrun
      exact trivial
    · by_cases hstop : (processPage after before keyword page).inRange = true
      · rw [pageLoop_cons_cont_zero gw isG after before keyword limit page bid msgs sk
          hp hstop] at hrun
        cases hrun
      · rw [pageLoop_cons_stop gw isG after before keyword limit 0 page bid msgs sk hp
          (Bool.not_eq_true _ ▸ eq_false_of_ne_true hstop)] at hrun
        cases hrun
        exact ⟨(fun h => absurd h hstop), trivial⟩
  | succ fuel ih =>
    intro page bid msgs sk r hrun
    by_cases hp : page = []
    · subst hp
      rw [pageLoop_nil] at hrun
      cases hrun
      exact trivial
    · by_cases hstop : (processPage after before keyword page).inRange = true
      · rw [pageLoop_cons_cont gw isG after before keyword limit fuel page bid msgs sk
          hp hstop] at hrun
        revert hrun
        cases hrec : pageLoop gw isG after before keyword limit fuel
            (stepReq gw isG after before keyword limit page bid msgs).page
            (stepReq gw isG after before keyword limit page bid msgs).beforeId
            (msgs ++ (processPage after before keyword page).collected)
            (sk + (processPage after before keyword page).skipped) with
        | none => intro hrun; cases hrun
        | some r1 =>
          intro hrun
          cases hrun
          refine ⟨fun _ => ?_, ih _ _ _ _ r1 hrec⟩
          show cursorOr (processPage after before keyword page).cursor bid
            = (page.getLast?).map MsgData.id
          rw [processPage_inRange_cursor after before keyword page hp hstop]
          cases hgl : page.getLast? with
          | none =>
            exact absurd (List.getLast?_eq_none_iff.mp hgl) hp
          | some x => rfl
      · rw [pageLoop_cons_stop gw isG after before keyword limit (fuel + 1) page bid
          msgs sk hp (Bool.not_eq_true _ ▸ eq_false_of_ne_true hstop)] at hrun
        cases hrun
        exact ⟨(fun h => absurd h hstop), trivial⟩

theorem pageLoop_skip_shift (gw : Gw) (isG : Bool) (after before : Option Int)
    (keyword : Option String) (limit : Int) :
    ∀ (fuel : Nat) (page : List MsgData) (bid : Option String)
      (msgs : List MsgData) (sk : Nat),
      pageLoop gw isG after before keyword limit fuel page bid msgs sk
        = (pageLoop gw isG after before keyword limit fuel page bid msgs 0).map
            (fun r => ⟨r.msgs, sk + r.skipped, r.recs, r.inRange⟩) := by
  intro fuel
  induction fuel with
  | zero =>
    intro page bid msgs sk
    by_cases hp : page = []
    · subst hp
      rw [pageLoop_nil, pageLoop_nil]
      rfl
    · by_cases hstop : (processPage after before keyword page).inRange = true
      · rw [pageLoop_cons_cont_zero gw isG after before keyword limit page bid msgs sk
          hp hstop,
          pageLoop_cons_cont_zero gw isG after before keyword limit page bid msgs 0
          hp hstop]
        rfl
      · rw [pageLoop_cons_stop gw isG after before keyword limit 0 page bid msgs sk hp
          (Bool.not_eq_true _ ▸ eq_false_of_ne_true hstop),
          pageLoop_cons_stop gw isG after before keyword limit 0 page bid msgs 0 hp
          (Bool.not_eq_true _ ▸ eq_false_of_ne_true hstop)]
        simp
  | succ fuel ih =>
    intro page bid msgs sk
    by_cases hp : page = []
    · subst hp
      rw [pageLoop_nil, pageLoop_nil]
      rfl
    · by_cases hstop : (processPage after before keyword page).inRange = true
      · rw [pageLoop_cons_cont gw isG after before keyword limit fuel page bid msgs sk
          hp hstop,
          pageLoop_cons_cont gw isG after before keyword limit fuel page bid msgs 0
          hp hstop]
        rw [ih _ _ _ (sk + (processPage after before keyword page).skipped),
          ih _ _ _ (0 + (processPage after before keyword page).skipped)]
        cases pageLoop gw isG after before keyword limit fuel
            (stepReq gw isG after before keyword limit page bid msgs).page
            (stepReq gw isG after before keyword limit page bid msgs).beforeId
            (msgs ++ (processPage after before keyword page).collected) 0 with
        | none => rfl
        | some r1 =>
          simp only [Option.map]
          congr 1
          simp only [RunOut.mk.injEq]
          refine ⟨trivial, by omega, trivial, trivial⟩
      · rw [pageLoop_cons_stop gw isG after before keyword limit (fuel + 1) page bid
          msgs sk hp (Bool.not_eq_true _ ▸ eq_false_of_ne_true hstop),
          pageLoop_cons_stop gw isG after before keyword limit (fuel + 1) page bid
          msgs 0 hp (Bool.not_eq_true _ ▸ eq_false_of_ne_true hstop)]
        simp

/-- C1 (evaluation at the failing input): for a direct-message conversation of
two messages matching all criteria and `limit = 1`, `page_through_messages`
returns both messages. The direct-message branch never sends a `limit` request
parameter and the `while` condition never compares `len(messages)` against
`limit`, so a finite `limit` is not enforced for direct messages. -/
theorem dm_limit_not_enforced :
    (page_through_messages (gwDM [⟨"a", 20, some "x"⟩, ⟨"b", 10, some "y"⟩] 100)
        false none none none 1 5).map (fun r => r.msgs)
      = some [⟨"a", 20, some "x"⟩, ⟨"b", 10, some "y"⟩] := rfl

/-- C2 (counterexample): a group run with `limit = 1` whose first page already
yields the single permitted message still issues a second gateway request
(with `limit` parameter 0) after the collected count has reached `limit`; the
claim "once the collected count equals a finite limit, no further page request
is issued" would force a one-request trace. -/
theorem group_limit_extra_request_cex :
    page_through_messages (gwGroup [⟨"a", 20, some "x"⟩]) true none none none 1 5
      = some ⟨[⟨"a", 20, some "x"⟩], 0,
          [⟨none, some 1, [⟨"a", 20, some "x"⟩]⟩, ⟨some "a", some 0, []⟩], true⟩ := rfl

/-- C2 (amended): the `while` condition of the paging loop tests only page
non-emptiness and the `in_range` flag: every terminating run issues at least one
request, and when the loop exits, the last fetched page is empty or `in_range`
is false. (A finite group `limit` terminates paging only indirectly, through a
final request whose `limit` parameter is 0 and whose page is empty.) -/
theorem page_through_messages_exit (gw : Gw) (isG : Bool)
    (after before : Option Int) (keyword : Option String) (limit : Int)
    (fuel : Nat) (r : RunOut)
    (h : page_through_messages gw isG after before keyword limit fuel = some r) :
    r.recs ≠ [] ∧ ∀ lastRec, r.recs.getLast? = some lastRec →
      lastRec.page = [] ∨ r.inRange = false := by
  rw [page_through_messages] at h
  revert h
  cases hrec : pageLoop gw isG after before keyword limit fuel
      (gw none (limitParamFor isG limit 0)) none [] 0 with
  | none => intro h; cases h
  | some r0 =>
    intro h
    cases h
    have hsub := pageLoop_exit gw isG after before keyword limit fuel
      (gw none (limitParamFor isG limit 0)) none [] 0 r0 hrec
    refine ⟨(fun hx => by cases hx), fun lastRec hl => ?_⟩
    cases hrecs : r0.recs with
    | nil =>
      rw [hrecs] at hl
      simp only [List.getLast?_singleton] at hl
      cases hl
      exact Or.inl (hsub.1 hrecs)
    | cons a as =>
      rw [hrecs, List.getLast?_cons_cons] at hl
      exact hsub.2 lastRec (hrecs ▸ hl)

/-- Witness for `page_through_messages_exit` at a concrete run (a direct-message
conversation that is already empty: one request, empty page, `in_range` true). -/
theorem page_through_messages_exit_witness :
    (⟨[], 0, [⟨none, none, []⟩], true⟩ : RunOut).recs ≠ [] ∧
    ∀ lastRec,
      (⟨[], 0, [⟨none, none, []⟩], true⟩ : RunOut).recs.getLast? = some lastRec →
      lastRec.page = [] ∨ (⟨[], 0, [⟨none, none, []⟩], true⟩ : RunOut).inRange = false :=
  page_through_messages_exit (gwDM [] 1) false none none none (-1) 3
    ⟨[], 0, [⟨none, none, []⟩], true⟩ rfl

/-- C3 (counterexample): a run with an `after` bound whose very first message is
older than the bound collects nothing — yet the trace contains two requests: the
break at src/chat.py line 175 is followed by the unconditional fetch at line
207, so one further page is fetched after the first too-old message; the claim
"no further page is fetched from the gateway" would force a one-request trace. -/
theorem after_stop_extra_fetch_cex :
    (page_through_messages (gwDM [⟨"a", 5, none⟩] 100) false (some 10) none none
        (-1) 5).map (fun r => (r.msgs, r.recs.length))
      = some ([], 2) := rfl

/-- C3 (amended): with an `after` bound set, (1) every message returned by
`page_through_messages` has a sent epoch ≥ `after`; (2) once a message older
than `after` is encountered, the remaining items of that page are never
processed (the page's outcome does not depend on them at all); (3) after such an
early stop the loop issues exactly one further page request (the unconditional
fetch at src/chat.py line 207, whose response is discarded) and returns. -/
theorem after_bound_soundness :
    (∀ (gw : Gw) (isG : Bool) (a : Int) (before : Option Int)
        (keyword : Option String) (limit : Int) (fuel : Nat) (r : RunOut),
        page_through_messages gw isG (some a) before keyword limit fuel = some r →
        ∀ m ∈ r.msgs, a ≤ m.created_at) ∧
    (∀ (a : Int) (before : Option Int) (keyword : Option String)
        (p1 rest : List MsgData) (bad : MsgData), bad.created_at < a →
        processPage (some a) before keyword (p1 ++ bad :: rest)
          = processPage (some a) before keyword (p1 ++ [bad])) ∧
    (∀ (gw : Gw) (isG : Bool) (after before : Option Int) (keyword : Option String)
        (limit : Int) (fuel : Nat) (page : List MsgData) (bid : Option String)
        (msgs : List MsgData) (sk : Nat),
        page ≠ [] → (processPage after before keyword page).inRange = false →
        ∃ r, pageLoop gw isG after before keyword limit fuel page bid msgs sk = some r
          ∧ r.recs.length = 1 ∧ r.inRange = false) := by
  refine ⟨?_, ?_, ?_⟩
  · intro gw isG a before keyword limit fuel r hrun m hm
    rw [page_through_messages] at hrun
    revert hrun
    cases hrec : pageLoop gw isG (some a) before keyword limit fuel
        (gw none (limitParamFor isG limit 0)) none [] 0 with
    | none => intro hrun; cases hrun
    | some r0 =>
      intro hrun
      cases hrun
      refine pageLoop_msgs_prop gw isG (some a) before keyword limit
        (fun x => a ≤ x.created_at) ?_ fuel _ none [] 0 r0 hrec
        (fun x hx => absurd hx (List.not_mem_nil x)) m hm
      intro page x hx
      have hns := (processPage_mem_collected (some a) before keyword page x hx).1
      simp only [afterStop, decide_eq_false_iff_not, not_lt] at hns
      exact hns
  · intro a before keyword p1 rest bad hbad
    exact processPage_stop_tail (some a) before keyword bad
      (by simp [afterStop, hbad]) p1 rest
  · intro gw isG after before keyword limit fuel page bid msgs sk hp hstop
    exact ⟨_, pageLoop_cons_stop gw isG after before keyword limit fuel page bid
      msgs sk hp hstop, rfl, rfl⟩

/-- Witness for `after_bound_soundness` at concrete inputs: a one-message
conversation inside the bound; a page whose second element violates the bound
(so the third element is never processed); and a page triggering the early stop
(one further request recorded, `in_range` false). -/
theorem after_bound_soundness_witness :
    (∀ m ∈ (⟨[⟨"a", 12, none⟩], 0,
        [⟨none, none, [⟨"a", 12, none⟩]⟩, ⟨some "a", none, []⟩], true⟩ : RunOut).msgs,
      (10 : Int) ≤ m.created_at) ∧
    processPage (some 10) none none ([⟨"k", 11, none⟩] ++ (⟨"b", 5, none⟩ : MsgData)
        :: [⟨"c", 4, none⟩])
      = processPage (some 10) none none ([⟨"k", 11, none⟩] ++ [⟨"b", 5, none⟩]) ∧
    (∃ r, pageLoop (gwDM [] 1) false (some 10) none none (-1) 2
        [⟨"b", 5, none⟩] none [] 0 = some r ∧ r.recs.length = 1 ∧ r.inRange = false) :=
  ⟨after_bound_soundness.1 (gwDM [⟨"a", 12, none⟩] 100) false 10 none none (-1) 5
      ⟨[⟨"a", 12, none⟩], 0,
        [⟨none, none, [⟨"a", 12, none⟩]⟩, ⟨some "a", none, []⟩], true⟩ rfl,
    after_bound_soundness.2.1 10 none none [⟨"k", 11, none⟩] [⟨"c", 4, none⟩]
      ⟨"b", 5, none⟩ (by decide),
    after_bound_soundness.2.2 (gwDM [] 1) false (some 10) none none (-1) 2
      [⟨"b", 5, none⟩] none [] 0 (by simp) rfl⟩

theorem skipFilter_false_before (b : Int) (keyword : Option String) (m : MsgData)
    (h : skipFilter (some b) keyword m = false) : m.created_at ≤ b := by
  simp only [skipFilter, Bool.or_eq_false_iff, decide_eq_false_iff_not, not_lt] at h
  exact h.1

theorem skipFilter_false_keyword (before : Option Int) (k : String) (m : MsgData)
    (h : skipFilter before (some k) m = false) :
    ∃ t, m.text = some t ∧ hasSubChars k.data t.data = true := by
  simp only [skipFilter, Bool.or_eq_false_iff] at h
  have h2 := h.2
  cases htext : m.text with
  | none =>
    rw [htext] at h2
    cases h2
  | some t =>
    rw [htext] at h2
    simp only [Bool.not_eq_false] at h2
    exact ⟨t, rfl, by simpa using h2⟩

/-- C4: (1) with a `before` bound, every message returned by
`page_through_messages` has a sent epoch ≤ `before`; (2) with a keyword, every
returned message's text is non-null and contains the keyword as a (case
sensitive) substring; (3) with a keyword set, a message whose text is null is
counted as skipped, not collected, and causes no error — the page is processed
to completion and the cursor still advances; (4) the skip counter never
influences the returned messages, the request trace (in particular the `limit`
parameters, which are recomputed from `len(messages)` alone) or termination:
skipped messages do not count toward the limit. -/
theorem before_keyword_filter_soundness :
    (∀ (gw : Gw) (isG : Bool) (after : Option Int) (b : Int)
        (keyword : Option String) (limit : Int) (fuel : Nat) (r : RunOut),
        page_through_messages gw isG after (some b) keyword limit fuel = some r →
        ∀ m ∈ r.msgs, m.created_at ≤ b) ∧
    (∀ (gw : Gw) (isG : Bool) (after before : Option Int) (k : String)
        (limit : Int) (fuel : Nat) (r : RunOut),
        page_through_messages gw isG after before (some k) limit fuel = some r →
        ∀ m ∈ r.msgs, ∃ t, m.text = some t ∧ hasSubChars k.data t.data = true) ∧
    (∀ (before : Option Int) (k : String) (m : MsgData), m.text = none →
        processPage none before (some k) [m] = ⟨[], 1, true, some m.id⟩) ∧
    (∀ (gw : Gw) (isG : Bool) (after before : Option Int) (keyword : Option String)
        (limit : Int) (fuel : Nat) (page : List MsgData) (bid : Option String)
        (msgs : List MsgData) (sk : Nat),
        pageLoop gw isG after before keyword limit fuel page bid msgs sk
          = (pageLoop gw isG after before keyword limit fuel page bid msgs 0).map
              (fun r => ⟨r.msgs, sk + r.skipped, r.recs, r.inRange⟩)) := by
  refine ⟨?_, ?_, ?_, ?_⟩
  · intro gw isG after b keyword limit fuel r hrun m hm
    rw [page_through_messages] at hrun
    revert hrun
    cases hrec : pageLoop gw isG after (some b) keyword limit fuel
        (gw none (limitParamFor isG limit 0)) none [] 0 with
    | none => intro hrun; cases hrun
    | some r0 =>
      intro hrun
      cases hrun
      refine pageLoop_msgs_prop gw isG after (some b) keyword limit
        (fun x => x.created_at ≤ b) ?_ fuel _ none [] 0 r0 hrec
        (fun x hx => absurd hx (List.not_mem_nil x)) m hm
      intro page x hx
      exact skipFilter_false_before b keyword x
        (processPage_mem_collected after (some b) keyword page x hx).2
  · intro gw isG after before k limit fuel r hrun m hm
    rw [page_through_messages] at hrun
    revert hrun
    cases hrec : pageLoop gw isG after before (some k) limit fuel
        (gw none (limitParamFor isG limit 0)) none [] 0 with
    | none => intro hrun; cases hrun
    | some r0 =>
      intro hrun
      cases hrun
      refine pageLoop_msgs_prop gw isG after before (some k) limit
        (fun x => ∃ t, x.text = some t ∧ hasSubChars k.data t.data = true) ?_
        fuel _ none [] 0 r0 hrec
        (fun x hx => absurd hx (List.not_mem_nil x)) m hm
      intro page x hx
      exact skipFilter_false_keyword before k x
        (processPage_mem_collected after before (some k) page x hx).2
  · intro before k m hm
    exact processPage_null_text before k m hm
  · intro gw isG after before keyword limit fuel page bid msgs sk
    exact pageLoop_skip_shift gw isG after before keyword limit fuel page bid msgs sk

/-- Witness for `before_keyword_filter_soundness` at concrete inputs. -/
theorem before_keyword_filter_soundness_witness :
    (∀ m ∈ (⟨[⟨"a", 8, none⟩], 0,
        [⟨none, none, [⟨"a", 8, none⟩]⟩, ⟨some "a", none, []⟩], true⟩ : RunOut).msgs,
      m.created_at ≤ (10 : Int)) ∧
    (∀ m ∈ (⟨[⟨"a", 8, some "say hi now"⟩], 0,
        [⟨none, none, [⟨"a", 8, some "say hi now"⟩]⟩, ⟨some "a", none, []⟩],
        true⟩ : RunOut).msgs,
      ∃ t, m.text = some t ∧ hasSubChars "hi".data t.data = true) ∧
    processPage none none (some "hi") [⟨"n", 3, none⟩] = ⟨[], 1, true, some "n"⟩ ∧
    pageLoop (gwDM [] 1) false none none none (-1) 2 [] none [] 7
      = (pageLoop (gwDM [] 1) false none none none (-1) 2 [] none [] 0).map
          (fun r => ⟨r.msgs, 7 + r.skipped, r.recs, r.inRange⟩) :=
  ⟨before_keyword_filter_soundness.1 (gwDM [⟨"a", 8, none⟩] 100) false none 10
      none (-1) 5
      ⟨[⟨"a", 8, none⟩], 0,
        [⟨none, none, [⟨"a", 8, none⟩]⟩, ⟨some "a", none, []⟩], true⟩ rfl,
    before_keyword_filter_soundness.2.1 (gwDM [⟨"a", 8, some "say hi now"⟩] 100)
      false none none "hi" (-1) 5
      ⟨[⟨"a", 8, some "say hi now"⟩], 0,
        [⟨none, none, [⟨"a", 8, some "say hi now"⟩]⟩, ⟨some "a", none, []⟩],
        true⟩ rfl,
    before_keyword_filter_soundness.2.2.1 none "hi" ⟨"n", 3, none⟩ rfl,
    before_keyword_filter_soundness.2.2.2 (gwDM [] 1) false none none none (-1) 2
      [] none [] 7⟩

/-- C5 (counterexample): when an `after` bound triggers the early stop before
the last item of a page, the `before_id` update at src/chat.py line 197 is never
reached, so the one further request issued at line 207 is sent with the stale
previous cursor (here `none`), not with the id of the last message (`"b"`) of
the page returned by the preceding request — refuting the claim for that
request. -/
theorem cursor_stale_after_stop_cex :
    page_through_messages (gwDM [⟨"a", 5, none⟩, ⟨"b", 3, none⟩] 2) false (some 10)
        none none (-1) 5
      = some ⟨[], 0,
          [⟨none, none, [⟨"a", 5, none⟩, ⟨"b", 3, none⟩]⟩,
           ⟨none, none, [⟨"a", 5, none⟩, ⟨"b", 3, none⟩]⟩], false⟩ ∧
    ¬((⟨none, none, [⟨"a", 5, none⟩, ⟨"b", 3, none⟩]⟩ : ReqRec).beforeId
        = (([⟨"a", 5, none⟩, ⟨"b", 3, none⟩] : List MsgData).getLast?).map
            MsgData.id) :=
  ⟨rfl, by simp⟩

theorem traceChained_get (after before : Option Int) (keyword : Option String) :
    ∀ (l : List ReqRec), traceChained after before keyword l →
      ∀ (i : Nat) (hi : i + 1 < l.length),
        (processPage after before keyword
            (l.get ⟨i, Nat.lt_of_succ_lt hi⟩).page).inRange = true →
        (l.get ⟨i + 1, hi⟩).beforeId
          = ((l.get ⟨i, Nat.lt_of_succ_lt hi⟩).page.getLast?).map MsgData.id
  | [], _, i, hi => by simp at hi
  | r1 :: [], _, i, hi => by simp at hi
  | r1 :: r2 :: rest, h, 0, hi => h.1
  | r1 :: r2 :: rest, h, i + 1, hi =>
    traceChained_get after before keyword (r2 :: rest) h.2 i (by simpa using hi)

/-- C5 (amended): in every run, each request n+1 that was issued while no
after-triggered early stop had occurred — i.e. whose preceding page was
processed through its last item, so that the cursor update at src/chat.py line
197 ran — carries a `before_id` equal to the id of the last message of the page
returned by request n, regardless of whether that message was collected or
skipped by the filters; in particular this holds unconditionally for every
adjacent pair of requests of any run whose `after` bound is unset. Only the
single discarded request issued after an early stop (whose page's processing is
not in range) is exempt. -/
theorem cursor_advancement (gw : Gw) (isG : Bool) (after before : Option Int)
    (keyword : Option String) (limit : Int) (fuel : Nat) (r : RunOut)
    (h : page_through_messages gw isG after before keyword limit fuel = some r) :
    (∀ (i : Nat) (hi : i + 1 < r.recs.length),
      (processPage after before keyword
          (r.recs.get ⟨i, Nat.lt_of_succ_lt hi⟩).page).inRange = true →
      (r.recs.get ⟨i + 1, hi⟩).beforeId
        = ((r.recs.get ⟨i, Nat.lt_of_succ_lt hi⟩).page.getLast?).map MsgData.id) ∧
    (after = none →
      ∀ (i : Nat) (hi : i + 1 < r.recs.length),
        (r.recs.get ⟨i + 1, hi⟩).beforeId
          = ((r.recs.get ⟨i, Nat.lt_of_succ_lt hi⟩).page.getLast?).map MsgData.id) := by
  rw [page_through_messages] at h
  revert h
  cases hrec : pageLoop gw isG after before keyword limit fuel
      (gw none (limitParamFor isG limit 0)) none [] 0 with
  | none => intro h; cases h
  | some r0 =>
    intro h
    cases h
    have hchain := pageLoop_chain gw isG after before keyword limit fuel _ none [] 0
      r0 hrec
    refine ⟨traceChained_get after before keyword _ hchain, ?_⟩
    rintro rfl i hi
    exact traceChained_get none before keyword
      (⟨none, limitParamFor isG limit 0, gw none (limitParamFor isG limit 0)⟩
        :: r0.recs) hchain i hi
      (processPage_after_none before keyword _).1

/-- Witness for `cursor_advancement`: a run with an `after` bound of 10 over a
three-message conversation (epochs 20, 15, 5) with page size 1. The third
request was issued before the early stop (its preceding page, holding the
message with epoch 15, was processed in range) and carries the id of that
page's last message. -/
theorem cursor_advancement_witness :
    ((⟨[⟨"a", 20, none⟩, ⟨"b", 15, none⟩], 0,
        [⟨none, none, [⟨"a", 20, none⟩]⟩, ⟨some "a", none, [⟨"b", 15, none⟩]⟩,
         ⟨some "b", none, [⟨"c", 5, none⟩]⟩, ⟨some "b", none, [⟨"c", 5, none⟩]⟩],
        false⟩ : RunOut).recs.get ⟨2, by decide⟩).beforeId
      = (((⟨[⟨"a", 20, none⟩, ⟨"b", 15, none⟩], 0,
          [⟨none, none, [⟨"a", 20, none⟩]⟩, ⟨some "a", none, [⟨"b", 15, none⟩]⟩,
           ⟨some "b", none, [⟨"c", 5, none⟩]⟩, ⟨some "b", none, [⟨"c", 5, none⟩]⟩],
          false⟩ : RunOut).recs.get ⟨1, by decide⟩).page.getLast?).map MsgData.id :=
  (cursor_advancement (gwDM [⟨"a", 20, none⟩, ⟨"b", 15, none⟩, ⟨"c", 5, none⟩] 1)
      false (some 10) none none (-1) 9
      ⟨[⟨"a", 20, none⟩, ⟨"b", 15, none⟩], 0,
        [⟨none, none, [⟨"a", 20, none⟩]⟩, ⟨some "a", none, [⟨"b", 15, none⟩]⟩,
         ⟨some "b", none, [⟨"c", 5, none⟩]⟩, ⟨some "b", none, [⟨"c", 5, none⟩]⟩],
        false⟩ rfl).1 1 (by decide) rfl

theorem dropAfterId_append (x : MsgData) :
    ∀ (l1 l2 : List MsgData), (∀ m ∈ l1, m.id ≠ x.id) →
      dropAfterId (l1 ++ x :: l2) (some x.id) = l2
  | [], l2, _ => by
    simp [dropAfterId, List.dropWhile_cons]
  | m :: l1', l2, h => by
    have hm : (m.id != x.id) = true := by
      simpa using h m (List.mem_cons_self m l1')
    have ih := dropAfterId_append x l1' l2
      (fun m' hm' => h m' (List.mem_cons_of_mem m hm'))
    simp only [dropAfterId, List.cons_append, List.dropWhile_cons, hm, if_true] at ih ⊢
    exact ih

theorem nodup_ne_mid (l1 l2 : List MsgData) (x : MsgData)
    (h : ((l1 ++ x :: l2).map MsgData.id).Nodup) : ∀ m ∈ l1, m.id ≠ x.id := by
  intro m hm heq
  rw [List.map_append, List.nodup_append] at h
  exact h.2.2 (List.mem_map_of_mem MsgData.id hm) (by rw [heq]; simp)

theorem findLoop_over_convo (convo : List MsgData) (pageSize : Nat)
    (reply_id : String) (hps : 0 < pageSize)
    (hnd : (convo.map MsgData.id).Nodup) :
    ∀ (fuel : Nat) (s pre : List MsgData) (c : String),
      convo = pre ++ s → dropAfterId convo (some c) = s → s.length + 1 ≤ fuel →
      findLoop (gwReply convo pageSize) reply_id fuel c
        = some (s.find? (fun x => x.id == reply_id)) := by
  obtain ⟨k, rfl⟩ : ∃ k, pageSize = k + 1 := ⟨pageSize - 1, by omega⟩
  intro fuel
  induction fuel with
  | zero => intro s pre c hsplit hdrop hlen; omega
  | succ fuel ih =>
    intro s pre c hsplit hdrop hlen
    have hgw : gwReply convo (k + 1) c = s.take (k + 1) := by
      rw [gwReply, hdrop]
    cases hs : s with
    | nil =>
      subst hs
      rw [findLoop, hgw]
      simp
    | cons m s1 =>
      subst hs
      rw [findLoop, hgw, List.take_succ_cons]
      have hsdecomp : m :: s1 = (m :: s1.take k) ++ s1.drop k := by
        rw [List.cons_append, List.take_append_drop]
      cases hfind : (m :: s1.take k).find? (fun x => x.id == reply_id) with
      | some found =>
        simp only [hfind]
        rw [hsdecomp, List.find?_append, hfind]
        rfl
      | none =>
        simp only [hfind]
        have hpageLast : (m :: s1.take k)
            = (m :: s1.take k).dropLast ++ [(m :: s1.take k).getLast (by simp)] :=
          (List.dropLast_append_getLast (by simp)).symm
        have hconvo2 : convo = (pre ++ (m :: s1.take k).dropLast)
            ++ ((m :: s1.take k).getLast (by simp)) :: s1.drop k := by
          rw [hsplit, hsdecomp]
          conv_lhs => rw [hpageLast]
          simp
        have hne := nodup_ne_mid (pre ++ (m :: s1.take k).dropLast) (s1.drop k)
          ((m :: s1.take k).getLast (by simp)) (by rw [← hconvo2]; exact hnd)
        have hdrop2 : dropAfterId convo
            (some ((m :: s1.take k).getLast (by simp)).id) = s1.drop k := by
          rw [hconvo2]
          exact dropAfterId_append _ _ _ hne
        have hlen2 : (s1.drop k).length + 1 ≤ fuel := by
          simp only [List.length_drop]
          simp only [List.length_cons] at hlen
          omega
        rw [ih (s1.drop k) (pre ++ (m :: s1.take k)) _
          (by rw [hsplit, hsdecomp, List.append_assoc]) hdrop2 hlen2]
        rw [hsdecomp, List.find?_append, hfind]
        rfl

theorem dropAfterId_suffix (convo : List MsgData) (c : String) :
    ∃ pre, convo = pre ++ dropAfterId convo (some c) := by
  have h1 : dropAfterId convo (some c) <:+ convo := by
    rw [dropAfterId]
    exact (List.drop_suffix 1 _).trans (List.dropWhile_suffix _)
  obtain ⟨pre, hpre⟩ := h1
  exact ⟨pre, hpre.symm⟩

/-- C8: `Message.replied_message` returns `None` (no error, no request) when the
message's `reply_message_id` is null; otherwise it pages backward starting from
the message's own id, and over a conversation with distinct message ids it
returns exactly the first message after the starting position whose id equals
`reply_message_id` — or `None` when the backward pages are exhausted without
finding it (the `find?` on the suffix is `none`). -/
theorem replied_message_resolution (convo : List MsgData) (pageSize fuel : Nat)
    (selfId reply_id : String) (gw : String → List MsgData)
    (hps : 0 < pageSize) (hnd : (convo.map MsgData.id).Nodup)
    (hfuel : convo.length + 1 ≤ fuel) :
    replied_message gw selfId none fuel = some none ∧
    replied_message (gwReply convo pageSize) selfId (some reply_id) fuel
      = some ((dropAfterId convo (some selfId)).find?
          (fun x => x.id == reply_id)) := by
  refine ⟨rfl, ?_⟩
  obtain ⟨pre, hpre⟩ := dropAfterId_suffix convo selfId
  have hlen : (dropAfterId convo (some selfId)).length ≤ convo.length := by
    conv_rhs => rw [hpre]
    simp
  exact findLoop_over_convo convo pageSize reply_id hps hnd fuel
    (dropAfterId convo (some selfId)) pre selfId hpre rfl (by omega)

/-- Witness for `replied_message_resolution`: a three-message conversation paged
one message at a time, resolving a reply from the newest message to the oldest. -/
theorem replied_message_resolution_witness :
    replied_message (gwReply [⟨"a", 30, none⟩, ⟨"b", 20, none⟩, ⟨"c", 10, none⟩] 1)
        "a" none 4 = some none ∧
    replied_message (gwReply [⟨"a", 30, none⟩, ⟨"b", 20, none⟩, ⟨"c", 10, none⟩] 1)
        "a" (some "c") 4
      = some ((dropAfterId [⟨"a", 30, none⟩, ⟨"b", 20, none⟩, ⟨"c", 10, none⟩]
          (some "a")).find? (fun x => x.id == "c")) :=
  replied_message_resolution [⟨"a", 30, none⟩, ⟨"b", 20, none⟩, ⟨"c", 10, none⟩]
    1 4 "a" "c" (gwReply [⟨"a", 30, none⟩, ⟨"b", 20, none⟩, ⟨"c", 10, none⟩] 1)
    (by decide) (by decide) (by decide)

end PyGroupMe
